import Mathlib

/-!
Verification of the bwdraw canvas library (src/lib.rs).

The library stores a logical boolean pixel grid physically as rows of
cell pairs (`DuoPixel`): each physical row packs two logical rows, the
even one as `upper` halves and the odd one as `lower` halves, rendered
with half-block characters.  The definitions below are a shallow
embedding of the Rust source: `Vec` becomes `List`, fallible indexing
(`get`, `get_mut`) becomes `getElem?`, and the in-place mutators are
modelled as functions returning the post-call state of `self` together
with the returned value.
-/

/-- Constant `FULL_C` from lib.rs: the full block character. -/
def FULL_C : Char := '█'

/-- Constant `LOWER_C` from lib.rs: the lower half block character. -/
def LOWER_C : Char := '▄'

/-- Constant `UPPER_C` from lib.rs: the upper half block character. -/
def UPPER_C : Char := '▀'

/-- Constant `EMPTY_C` from lib.rs: the space character. -/
def EMPTY_C : Char := ' '

/-- Struct `DuoPixel` from lib.rs: one displayable cell with independent
upper and lower half states. -/
structure DuoPixel where
  upper : Bool
  lower : Bool
  deriving DecidableEq

/-- Impl `Into<char> for DuoPixel` from lib.rs: a match on
`(self.lower, self.upper)` in source order. -/
def DuoPixel.toChar (p : DuoPixel) : Char :=
  match p.lower, p.upper with
  | true, true => FULL_C
  | false, true => UPPER_C
  | true, false => LOWER_C
  | false, false => EMPTY_C

/-- Struct `Row` from lib.rs: an ordered sequence of cell pairs. -/
structure Row where
  pixels : List DuoPixel
  deriving DecidableEq

/-- Impl `From<(Vec<bool>, Vec<bool>)> for Row` from lib.rs: zip the
upper-halves vector with the lower-halves vector. -/
def Row.ofPair (value : List Bool × List Bool) : Row :=
  ⟨List.zipWith (fun u l => DuoPixel.mk u l) value.1 value.2⟩

/-- Impl `Into<(Vec<bool>, Vec<bool>)> for Row` from lib.rs: unzip into
the upper-halves vector and the lower-halves vector. -/
def Row.toPair (r : Row) : List Bool × List Bool :=
  (r.pixels.map fun p => (p.upper, p.lower)).unzip

/-- Impl `Into<String> for Row` from lib.rs: each pixel becomes its
character. -/
def Row.toStr (r : Row) : String :=
  String.mk (r.pixels.map DuoPixel.toChar)

/-- Struct `Canvas` from lib.rs: an ordered sequence of physical rows. -/
structure Canvas where
  rows : List Row
  deriving DecidableEq

/-- Local `longed` from `From<Vec<Vec<bool>>> for Canvas` in lib.rs: when
the number of logical rows is odd, append one all-false row whose width
is the width of row 0 (width 0 for the empty matrix). -/
def longed (value : List (List Bool)) : List (List Bool) :=
  if value.length % 2 = 0 then value
  else value ++ [List.replicate (value.headD []).length false]

/-- Consecutive pairing, modelling `chunks(2)` followed by
`(chunk[0], chunk[1])` in lib.rs on a list of even length. -/
def chunkPairs : List α → List (α × α)
  | a :: b :: rest => (a, b) :: chunkPairs rest
  | _ => []

/-- Checked variant of `chunkPairs` that reports failure on a trailing
odd chunk, where the Rust `chunk[1]` index would panic. -/
def chunkPairsChecked : List α → Option (List (α × α))
  | [] => some []
  | a :: b :: rest => (chunkPairsChecked rest).map fun t => (a, b) :: t
  | _ => none

/-- Impl `From<Vec<Vec<bool>>> for Canvas` from lib.rs: pad to even row
count, pair consecutive rows, zip each pair into a physical row. -/
def Canvas.ofMatrix (value : List (List Bool)) : Canvas :=
  ⟨(chunkPairs (longed value)).map Row.ofPair⟩

/-- Variant of `Canvas.ofMatrix` exposing the panic possibility of the
`chunk[1]` index in lib.rs as an `Option`. -/
def Canvas.ofMatrixChecked (value : List (List Bool)) : Option Canvas :=
  (chunkPairsChecked (longed value)).map fun ps => ⟨ps.map Row.ofPair⟩

/-- Impl `Into<Vec<Vec<bool>>> for Canvas` from lib.rs: each physical row
flat-maps to its upper-halves row followed by its lower-halves row. -/
def Canvas.toMatrix (c : Canvas) : List (List Bool) :=
  c.rows.flatMap fun row => [row.toPair.1, row.toPair.2]

/-- `Canvas::new` from lib.rs: an all-false height-by-width matrix fed to
the matrix constructor. -/
def Canvas.new (width height : Nat) : Canvas :=
  Canvas.ofMatrix (List.replicate height (List.replicate width false))

/-- `Canvas::get_duopixel` from lib.rs: fallible indexing of the physical
row `y`, then of its pixel `x`. -/
def Canvas.get_duopixel (c : Canvas) (x y : Nat) : Option DuoPixel :=
  (c.rows[y]?).bind fun row => row.pixels[x]?

/-- `Canvas::mut_set_duopixel` from lib.rs: replace the pixel at physical
`(x, y)` returning the previous one, or leave the canvas unchanged and
return nothing when out of bounds.  The first component is the post-call
state of `self`. -/
def Canvas.mut_set_duopixel (c : Canvas) (x y : Nat) (pixel : DuoPixel) :
    Canvas × Option DuoPixel :=
  match c.rows[y]? with
  | none => (c, none)
  | some row =>
    match row.pixels[x]? with
    | none => (c, none)
    | some orig => (⟨c.rows.set y ⟨row.pixels.set x pixel⟩⟩, some orig)

/-- Fallible logical-matrix update `*subpixeled.get_mut(y)?.get_mut(x)? = state`
shared by the `set` family in lib.rs. -/
def setMatrix (m : List (List Bool)) (x y : Nat) (state : Bool) :
    Option (List (List Bool)) :=
  match m[y]? with
  | none => none
  | some row =>
    match row[x]? with
    | none => none
    | some _ => some (m.set y (row.set x state))

/-- Fallible logical-matrix pixel inversion from `invert_pixel` in lib.rs. -/
def invertAt (m : List (List Bool)) (x y : Nat) : Option (List (List Bool)) :=
  match m[y]? with
  | none => none
  | some row =>
    match row[x]? with
    | none => none
    | some b => some (m.set y (row.set x (!b)))

/-- `Canvas::get` from lib.rs: convert to the logical matrix, then index
row `y` and column `x` fallibly. -/
def Canvas.get (c : Canvas) (x y : Nat) : Option Bool :=
  (c.toMatrix[y]?).bind fun row => row[x]?

/-- `Canvas::set` from lib.rs: update the logical matrix and rebuild. -/
def Canvas.set (c : Canvas) (x y : Nat) (state : Bool) : Option Canvas :=
  (setMatrix c.toMatrix x y state).map Canvas.ofMatrix

/-- `Canvas::mut_set` from lib.rs: like `set`, but also assigns the new
canvas to `self` on success.  First component is the post-call state. -/
def Canvas.mut_set (c : Canvas) (x y : Nat) (state : Bool) :
    Canvas × Option Canvas :=
  match setMatrix c.toMatrix x y state with
  | none => (c, none)
  | some m => (Canvas.ofMatrix m, some (Canvas.ofMatrix m))

/-- `Canvas::invert_pixel` from lib.rs: flip one logical pixel, rebuilt
from the logical matrix. -/
def Canvas.invert_pixel (c : Canvas) (x y : Nat) : Option Canvas :=
  (invertAt c.toMatrix x y).map Canvas.ofMatrix

/-- `Canvas::mut_invert_pixel` from lib.rs: like `invert_pixel`, but also
assigns the new canvas to `self` on success. -/
def Canvas.mut_invert_pixel (c : Canvas) (x y : Nat) :
    Canvas × Option Canvas :=
  match invertAt c.toMatrix x y with
  | none => (c, none)
  | some m => (Canvas.ofMatrix m, some (Canvas.ofMatrix m))

/-- `Canvas::inverted` from lib.rs: negate every entry of the logical
matrix and rebuild. -/
def Canvas.inverted (c : Canvas) : Canvas :=
  Canvas.ofMatrix (c.toMatrix.map fun r => r.map fun p => !p)

/-- `Canvas::invert` from lib.rs: in-place variant; the result is the
post-call state of `self`. -/
def Canvas.invert (c : Canvas) : Canvas :=
  Canvas.ofMatrix (c.toMatrix.map fun r => r.map fun p => !p)

/-- Concatenation of a list of strings, modelling `collect::<String>()`. -/
def strConcat : List String → String
  | [] => ""
  | s :: rest => s ++ strConcat rest

/-- Impl `Into<String> for Canvas` from lib.rs: each physical row becomes
its glyph string followed by a newline, all concatenated in order. -/
def Canvas.toStr (c : Canvas) : String :=
  strConcat (c.rows.map fun r => r.toStr ++ "\n")

/-- Splitting a character list at newline characters, the char-level core
of Rust `str::lines` used by `Canvas::parse`. -/
def splitLinesChars : List Char → List (List Char)
  | [] => [[]]
  | c :: rest =>
    if c = '\n' then [] :: splitLinesChars rest
    else
      match splitLinesChars rest with
      | [] => [[c]]
      | l :: ls => (c :: l) :: ls

/-- Stripping one trailing carriage return, as Rust `str::lines` does on
each line split at a newline. -/
def stripCR (l : List Char) : List Char :=
  match l.getLast? with
  | some c => if c = '\r' then l.dropLast else l
  | none => l

/-- Rust `str::lines`: split at newlines, drop the final empty piece
produced by a trailing newline, strip a trailing carriage return. -/
def rustLines (s : String) : List (List Char) :=
  let parts := splitLinesChars s.data
  let parts := if parts.getLast? = some [] then parts.dropLast else parts
  parts.map stripCR

/-- `Canvas::parse` from lib.rs: each character of each line becomes
`true` when it equals `active`, `false` when it equals `inactive`, and
`true` otherwise; the resulting matrix is fed to the matrix
constructor. -/
def Canvas.parse (str_pic : String) (active inactive : Char) : Canvas :=
  Canvas.ofMatrix ((rustLines str_pic).map fun l =>
    l.map fun c => if c = active then true else if c = inactive then false else true)

/-- Unfolds `Row.toPair` into its two projection maps. -/
theorem Row.toPair_eq (r : Row) :
    r.toPair = (r.pixels.map fun p => p.upper, r.pixels.map fun p => p.lower) := by
  simp [Row.toPair, List.unzip_eq_map, List.map_map, Function.comp_def]

/-- Upper halves of a zipped row recover the first source row when the
source rows have equal length. -/
theorem map_upper_zipWith (a b : List Bool) (h : a.length = b.length) :
    (List.zipWith (fun u l => DuoPixel.mk u l) a b).map (fun p => p.upper) = a := by
  induction a generalizing b with
  | nil => simp
  | cons x xs ih =>
    cases b with
    | nil => simp at h
    | cons y ys => simp [ih ys (by simpa using h)]

/-- Lower halves of a zipped row recover the second source row when the
source rows have equal length. -/
theorem map_lower_zipWith (a b : List Bool) (h : a.length = b.length) :
    (List.zipWith (fun u l => DuoPixel.mk u l) a b).map (fun p => p.lower) = b := by
  induction a generalizing b with
  | nil =>
    cases b with
    | nil => simp
    | cons y ys => simp at h
  | cons x xs ih =>
    cases b with
    | nil => simp at h
    | cons y ys => simp [ih ys (by simpa using h)]

/-- Unzipping a zipped row of equal-length sources is the identity. -/
theorem Row.toPair_ofPair (a b : List Bool) (h : a.length = b.length) :
    (Row.ofPair (a, b)).toPair = (a, b) := by
  rw [Row.toPair_eq]
  simp [Row.ofPair, map_upper_zipWith a b h, map_lower_zipWith a b h]

/-- Re-zipping the unzipped halves of a row is the identity. -/
theorem zipWith_upper_lower (ps : List DuoPixel) :
    List.zipWith (fun u l => DuoPixel.mk u l)
      (ps.map fun p => p.upper) (ps.map fun p => p.lower) = ps := by
  induction ps with
  | nil => rfl
  | cons p ps ih => simp [ih]

/-- Rebuilding a row from its unzipped halves is the identity. -/
theorem Row.ofPair_toPair (r : Row) : Row.ofPair r.toPair = r := by
  cases r with
  | mk pixels =>
    rw [Row.toPair_eq]
    simp [Row.ofPair, zipWith_upper_lower]

theorem Canvas.toMatrix_nil : (Canvas.mk []).toMatrix = [] := rfl

theorem Canvas.toMatrix_cons (r : Row) (rs : List Row) :
    (Canvas.mk (r :: rs)).toMatrix
      = r.toPair.1 :: r.toPair.2 :: (Canvas.mk rs).toMatrix := by
  simp [Canvas.toMatrix]

/-- The logical matrix always has twice as many rows as the physical
grid. -/
theorem Canvas.toMatrix_length (c : Canvas) :
    c.toMatrix.length = 2 * c.rows.length := by
  cases c with
  | mk rows' =>
    induction rows' with
    | nil => rfl
    | cons r rs ih =>
      rw [Canvas.toMatrix_cons]
      simp only [List.length_cons] at ih ⊢
      omega

/-- Consecutive rows of a matrix have equal length, pairwise. -/
def pairEqLens : List (List Bool) → Prop
  | a :: b :: rest => a.length = b.length ∧ pairEqLens rest
  | _ => True

theorem longed_of_even {m : List (List Bool)} (h : m.length % 2 = 0) :
    longed m = m := by
  unfold longed; rw [if_pos h]

theorem ofMatrix_cons_cons {a b : List Bool} {rest : List (List Bool)}
    (h : rest.length % 2 = 0) :
    Canvas.ofMatrix (a :: b :: rest)
      = Canvas.mk (Row.ofPair (a, b) :: (Canvas.ofMatrix rest).rows) := by
  have h2 : (a :: b :: rest).length % 2 = 0 := by
    simp only [List.length_cons]; omega
  simp only [Canvas.ofMatrix, longed_of_even h, longed_of_even h2, chunkPairs,
    List.map_cons]

/-- Extracting the logical matrix after construction is the identity on
even matrices whose consecutive rows pairwise agree in length. -/
theorem toMatrix_ofMatrix_pairwise :
    ∀ m : List (List Bool), m.length % 2 = 0 → pairEqLens m →
      (Canvas.ofMatrix m).toMatrix = m
  | [], _, _ => rfl
  | [a], he, _ => by simp at he
  | a :: b :: rest, he, hp => by
    have hr : rest.length % 2 = 0 := by
      simp only [List.length_cons] at he; omega
    rw [ofMatrix_cons_cons hr]
    have hrows : (Canvas.ofMatrix rest) = Canvas.mk (Canvas.ofMatrix rest).rows := rfl
    rw [Canvas.toMatrix_cons, Row.toPair_ofPair a b hp.1]
    rw [← hrows, toMatrix_ofMatrix_pairwise rest hr hp.2]

/-- Uniform-width matrices pairwise agree in row length. -/
theorem uniform_pairEqLens {w : Nat} :
    ∀ m : List (List Bool), (∀ r ∈ m, r.length = w) → pairEqLens m
  | [], _ => True.intro
  | [_], _ => True.intro
  | a :: b :: rest, h =>
    ⟨by rw [h a (by simp), h b (by simp)],
     uniform_pairEqLens rest fun r hr => h r (by simp [hr])⟩

/-- Rebuilding a canvas from its own logical matrix is the identity. -/
theorem ofMatrix_toMatrix_rows :
    ∀ rs : List Row, Canvas.ofMatrix (Canvas.mk rs).toMatrix = Canvas.mk rs
  | [] => rfl
  | r :: rs => by
    rw [Canvas.toMatrix_cons,
      ofMatrix_cons_cons (by rw [Canvas.toMatrix_length]; omega),
      ofMatrix_toMatrix_rows rs]
    exact congrArg (fun z => Canvas.mk (z :: rs)) (Row.ofPair_toPair r)

theorem ofMatrix_toMatrix (c : Canvas) : Canvas.ofMatrix c.toMatrix = c := by
  cases c with
  | mk rows' => exact ofMatrix_toMatrix_rows rows'

/-- The logical matrix of any canvas pairwise agrees in row length. -/
theorem toMatrix_pairEqLens (c : Canvas) : pairEqLens c.toMatrix := by
  cases c with
  | mk rows' =>
    induction rows' with
    | nil => exact True.intro
    | cons r rs ih =>
      rw [Canvas.toMatrix_cons]
      exact ⟨by simp [Row.toPair_eq], ih⟩

/-- Mapping a function over every entry preserves pairwise row-length
agreement. -/
theorem pairEqLens_map (f : Bool → Bool) :
    ∀ m : List (List Bool), pairEqLens m → pairEqLens (m.map (List.map f))
  | [], _ => True.intro
  | [_], _ => True.intro
  | a :: b :: rest, hp => by
    simp only [List.map_cons]
    exact ⟨by simp [hp.1], pairEqLens_map f rest hp.2⟩

/-- C1: for every boolean matrix with an even number of rows and uniform
row width, constructing a canvas and re-extracting the logical matrix
reproduces the original matrix exactly. -/
theorem ofMatrix_toMatrix_roundtrip (m : List (List Bool)) (w : Nat)
    (he : m.length % 2 = 0) (hw : ∀ r ∈ m, r.length = w) :
    (Canvas.ofMatrix m).toMatrix = m :=
  toMatrix_ofMatrix_pairwise m he (uniform_pairEqLens m hw)

/-- Witness for C1 at a concrete even uniform matrix. -/
theorem ofMatrix_toMatrix_roundtrip_witness :
    ([[true, false], [false, true]] : List (List Bool)).length % 2 = 0 ∧
    (∀ r ∈ ([[true, false], [false, true]] : List (List Bool)), r.length = 2) ∧
    (Canvas.ofMatrix [[true, false], [false, true]]).toMatrix
      = [[true, false], [false, true]] :=
  ⟨by decide, by decide,
    ofMatrix_toMatrix_roundtrip [[true, false], [false, true]] 2
      (by decide) (by decide)⟩

/-- C9: the copy-returning whole-grid invert is an involution on every
canvas, and invert on the empty canvas is a no-op. -/
theorem invert_involutive :
    (∀ c : Canvas, c.inverted.inverted = c) ∧
    (Canvas.mk []).invert = Canvas.mk [] ∧
    (Canvas.mk []).inverted = Canvas.mk [] := by
  refine ⟨fun c => ?_, rfl, rfl⟩
  show Canvas.ofMatrix _ = c
  have hpe : pairEqLens (c.toMatrix.map (List.map fun p => !p)) :=
    pairEqLens_map (fun p => !p) c.toMatrix (toMatrix_pairEqLens c)
  have hev : ((c.toMatrix.map fun r => r.map fun p => !p)).length % 2 = 0 := by
    rw [List.length_map, Canvas.toMatrix_length]; omega
  have hinner : (Canvas.inverted c).toMatrix
      = c.toMatrix.map fun r => r.map fun p => !p :=
    toMatrix_ofMatrix_pairwise _ hev hpe
  rw [hinner]
  have : ((c.toMatrix.map fun r => r.map fun p => !p).map fun r => r.map fun p => !p)
      = c.toMatrix := by
    simp [List.map_map, Function.comp_def]
  rw [this, ofMatrix_toMatrix]

/-- C2: the cell-pair-to-glyph encoding maps (upper, lower) = (true,true)
to the full block, (true,false) to the upper half block, (false,true) to
the lower half block, and (false,false) to the space, and the named
constants are exactly those characters. -/
theorem duoPixel_glyph_encoding :
    DuoPixel.toChar ⟨true, true⟩ = FULL_C ∧ FULL_C = '█' ∧
    DuoPixel.toChar ⟨true, false⟩ = UPPER_C ∧ UPPER_C = '▀' ∧
    DuoPixel.toChar ⟨false, true⟩ = LOWER_C ∧ LOWER_C = '▄' ∧
    DuoPixel.toChar ⟨false, false⟩ = EMPTY_C ∧ EMPTY_C = ' ' :=
  ⟨rfl, rfl, rfl, rfl, rfl, rfl, rfl, rfl⟩

/-- Pairing halves the length, rounding down. -/
theorem chunkPairs_length : ∀ l : List α, (chunkPairs l).length = l.length / 2
  | [] => by simp [chunkPairs]
  | [_] => by simp [chunkPairs]
  | _ :: _ :: rest => by
    simp only [chunkPairs, List.length_cons, chunkPairs_length rest]
    omega

/-- Padding adds one row exactly when the row count is odd. -/
theorem longed_length (m : List (List Bool)) :
    (longed m).length = m.length + m.length % 2 := by
  unfold longed
  by_cases hp : m.length % 2 = 0
  · rw [if_pos hp]; omega
  · rw [if_neg hp]; simp; omega

/-- The padded matrix always has an even number of rows. -/
theorem longed_even (m : List (List Bool)) : (longed m).length % 2 = 0 := by
  rw [longed_length]; omega

/-- Construction from the padded matrix equals construction from the
original matrix. -/
theorem ofMatrix_longed (m : List (List Bool)) :
    Canvas.ofMatrix (longed m) = Canvas.ofMatrix m := by
  simp only [Canvas.ofMatrix]
  rw [longed_of_even (longed_even m)]

/-- Padding an all-false matrix yields an all-false matrix of even row
count. -/
theorem longed_replicate (w h : Nat) :
    longed (List.replicate h (List.replicate w false))
      = List.replicate (h + h % 2) (List.replicate w false) := by
  by_cases hp : h % 2 = 0
  · rw [longed_of_even (by simpa using hp), hp, Nat.add_zero]
  · unfold longed
    rw [if_neg (by simpa using hp)]
    cases h with
    | zero => simp at hp
    | succ k =>
      have h1 : (k + 1) % 2 = 1 := by omega
      have h2 : k + 1 + (k + 1) % 2 = (k + 1) + 1 := by omega
      rw [h2, List.replicate_succ' (k + 1)]
      simp [List.replicate_succ]

/-- The logical matrix of a freshly constructed canvas is the all-false
matrix with row count rounded up to even. -/
theorem toMatrix_new (w h : Nat) :
    (Canvas.new w h).toMatrix
      = List.replicate (h + h % 2) (List.replicate w false) := by
  have hnew : Canvas.new w h
      = Canvas.ofMatrix (List.replicate (h + h % 2) (List.replicate w false)) := by
    unfold Canvas.new
    rw [← ofMatrix_longed, longed_replicate]
  rw [hnew]
  exact toMatrix_ofMatrix_pairwise _ (by simp; omega)
    (uniform_pairEqLens (w := w) _ fun r hr => by
      rw [List.eq_of_mem_replicate hr]; simp)

/-- C3 counterexample: `Canvas::new 1 1` has one physical row, so its
logical height is 2, not the requested height 1. -/
theorem canvas_new_counterexample :
    2 * (Canvas.new 1 1).rows.length ≠ 1 := by decide

/-- C3 amended: `Canvas::new width height` produces a canvas whose
logical height (2 × physical row count) is `height` rounded up to even
(`height + height % 2`), whose physical rows all have length `width`,
and whose logical pixels are all off. -/
theorem canvas_new_amended (w h : Nat) :
    2 * (Canvas.new w h).rows.length = h + h % 2 ∧
    (∀ r ∈ (Canvas.new w h).rows, r.pixels.length = w) ∧
    (∀ x y, x < w → y < h + h % 2 → (Canvas.new w h).get x y = some false) := by
  refine ⟨?_, ?_, ?_⟩
  · have hl := Canvas.toMatrix_length (Canvas.new w h)
    rw [toMatrix_new] at hl
    simpa using hl.symm
  · intro r hr
    have h1 : r.toPair.1 ∈ (Canvas.new w h).toMatrix :=
      List.mem_flatMap_of_mem hr (by simp)
    rw [toMatrix_new] at h1
    have hl : r.toPair.1.length = w := by
      rw [List.eq_of_mem_replicate h1]; simp
    simpa [Row.toPair_eq] using hl
  · intro x y hx hy
    simp only [Canvas.get]
    rw [toMatrix_new]
    simp [List.getElem?_replicate_of_lt hy, List.getElem?_replicate_of_lt hx]

/-- Witness for C3 amended at width 2, height 3. -/
theorem canvas_new_amended_witness :
    2 * (Canvas.new 2 3).rows.length = 3 + 3 % 2 ∧
    (Canvas.new 2 3).get 1 3 = some false :=
  ⟨(canvas_new_amended 2 3).1, (canvas_new_amended 2 3).2.2 1 3 (by decide) (by decide)⟩

/-- C7: serialization emits one glyph line plus newline per physical row,
concatenated in order; the empty canvas serializes to the empty string;
and the example matrix serializes to the full, upper, lower, empty
glyphs followed by a newline. -/
theorem canvas_serialization :
    (Canvas.mk []).toStr = "" ∧
    (Canvas.ofMatrix []).toStr = "" ∧
    (∀ (r : Row) (rs : List Row),
      (Canvas.mk (r :: rs)).toStr = r.toStr ++ "\n" ++ (Canvas.mk rs).toStr) ∧
    (Canvas.ofMatrix [[true, true, false, false], [true, false, true, false]]).toStr
      = "█▀▄ \n" :=
  ⟨rfl, rfl, fun _ _ => rfl, by decide⟩

/-- C8: parsing splits the text into lines and maps each character to
true when it equals the active character, false when it equals the
inactive character, and true otherwise, feeding the matrix constructor;
with active hash and inactive dot, the character x maps to true. -/
theorem parse_character_mapping :
    (∀ (text : String) (a i : Char),
      Canvas.parse text a i = Canvas.ofMatrix ((rustLines text).map fun l =>
        l.map fun c => if c = a then true else if c = i then false else true)) ∧
    Canvas.parse "#x." '#' '.' = Canvas.ofMatrix [[true, true, false]] :=
  ⟨fun _ _ _ => rfl, by decide⟩

/-- C4 counterexample: on the canvas of the two-row matrix [[true],[false]]
the logical height is 2 and the width is 1, yet `get_duopixel 0 1` and
`mut_set_duopixel 0 1` report absence, because they index physical rows
directly. -/
theorem duopixel_coords_counterexample :
    (0 < 1 ∧ 1 < 2 * (Canvas.ofMatrix [[true], [false]]).rows.length) ∧
    (Canvas.ofMatrix [[true], [false]]).get_duopixel 0 1 = none ∧
    ((Canvas.ofMatrix [[true], [false]]).mut_set_duopixel 0 1 ⟨true, true⟩).2 = none := by
  decide

/-- C4 amended: `get_duopixel` and `mut_set_duopixel` take `(x, y)` in
physical coordinates — row index `y` over the physical rows, column `x`
over the row — succeeding exactly when `x < width` and
`y < physical row count`; `mut_set_duopixel` returns the previous cell
pair and stores the new one there. -/
theorem duopixel_ops_physical_coords (c : Canvas) (w x y : Nat) (p : DuoPixel)
    (hw : ∀ r ∈ c.rows, r.pixels.length = w) :
    ((c.get_duopixel x y).isSome ↔ x < w ∧ y < c.rows.length) ∧
    (c.mut_set_duopixel x y p).2 = c.get_duopixel x y ∧
    (x < w → y < c.rows.length →
      (c.mut_set_duopixel x y p).1.get_duopixel x y = some p) := by
  refine ⟨⟨?_, ?_⟩, ?_, ?_⟩
  · intro hs
    cases hy : c.rows[y]? with
    | none => simp [Canvas.get_duopixel, hy] at hs
    | some row =>
      cases hx : row.pixels[x]? with
      | none => simp [Canvas.get_duopixel, hy, hx] at hs
      | some q =>
        have hylt : y < c.rows.length := by
          by_contra hcon
          rw [List.getElem?_eq_none (by omega)] at hy
          exact Option.noConfusion hy
        obtain ⟨hlt, hrw⟩ := List.getElem?_eq_some_iff.mp hy
        have hrow : row ∈ c.rows := hrw ▸ List.getElem_mem hlt
        have hxlt : x < w := by
          have hwl := hw row hrow
          by_contra hcon
          rw [List.getElem?_eq_none (by omega)] at hx
          exact Option.noConfusion hx
        exact ⟨hxlt, hylt⟩
  · rintro ⟨hxlt, hylt⟩
    have hx2 : x < (c.rows[y]).pixels.length := by
      rw [hw _ (List.getElem_mem hylt)]; exact hxlt
    simp [Canvas.get_duopixel, List.getElem?_eq_getElem hylt,
      List.getElem?_eq_getElem hx2]
  · cases hy : c.rows[y]? with
    | none => simp [Canvas.mut_set_duopixel, Canvas.get_duopixel, hy]
    | some row =>
      cases hx : row.pixels[x]? with
      | none => simp [Canvas.mut_set_duopixel, Canvas.get_duopixel, hy, hx]
      | some q => simp [Canvas.mut_set_duopixel, Canvas.get_duopixel, hy, hx]
  · intro hxlt hylt
    have hx2 : x < (c.rows[y]).pixels.length := by
      rw [hw _ (List.getElem_mem hylt)]; exact hxlt
    simp only [Canvas.mut_set_duopixel, List.getElem?_eq_getElem hylt,
      List.getElem?_eq_getElem hx2]
    simp only [Canvas.get_duopixel]
    rw [List.getElem?_set_self (by simpa using hylt)]
    simp [List.getElem?_set_self (by simpa using hx2)]

/-- Witness for C4 amended at a concrete canvas and in-bounds physical
coordinates. -/
theorem duopixel_ops_physical_coords_witness :
    ((Canvas.ofMatrix [[true], [false]]).get_duopixel 0 0).isSome = true ∧
    ((Canvas.ofMatrix [[true], [false]]).mut_set_duopixel 0 0 ⟨false, true⟩).2
      = (Canvas.ofMatrix [[true], [false]]).get_duopixel 0 0 ∧
    ((Canvas.ofMatrix [[true], [false]]).mut_set_duopixel 0 0
      ⟨false, true⟩).1.get_duopixel 0 0 = some ⟨false, true⟩ :=
  ⟨(duopixel_ops_physical_coords (Canvas.ofMatrix [[true], [false]]) 1 0 0
      ⟨false, true⟩ (by decide)).1.mpr (by decide),
   (duopixel_ops_physical_coords (Canvas.ofMatrix [[true], [false]]) 1 0 0
      ⟨false, true⟩ (by decide)).2.1,
   (duopixel_ops_physical_coords (Canvas.ofMatrix [[true], [false]]) 1 0 0
      ⟨false, true⟩ (by decide)).2.2 (by decide) (by decide)⟩

/-- Every row of the logical matrix of a rectangular canvas has the
canvas width. -/
theorem toMatrix_row_lengths (c : Canvas) (w : Nat)
    (hw : ∀ r ∈ c.rows, r.pixels.length = w) :
    ∀ r ∈ c.toMatrix, r.length = w := by
  intro r hr
  obtain ⟨row, hrow, hmem⟩ := List.mem_flatMap.mp hr
  have hl : row.pixels.length = w := hw row hrow
  have hmem' : r = row.toPair.1 ∨ r = row.toPair.2 := by simpa using hmem
  rcases hmem' with h1 | h1 <;> rw [h1] <;> simp [Row.toPair_eq, hl]

/-- C5: logical queries and mutations report absence on any coordinate at
or beyond the width or the logical height, and a failed in-place
mutation leaves the canvas exactly as it was. -/
theorem out_of_bounds_behavior (c : Canvas) (w x y : Nat) (s : Bool) (p : DuoPixel)
    (hw : ∀ r ∈ c.rows, r.pixels.length = w) :
    ((x ≥ w ∨ y ≥ 2 * c.rows.length) → c.get x y = none ∧ c.set x y s = none) ∧
    ((c.mut_set x y s).2 = none → (c.mut_set x y s).1 = c) ∧
    ((c.mut_invert_pixel x y).2 = none → (c.mut_invert_pixel x y).1 = c) ∧
    ((c.mut_set_duopixel x y p).2 = none → (c.mut_set_duopixel x y p).1 = c) := by
  refine ⟨?_, ?_, ?_, ?_⟩
  · intro hob
    cases hy : c.toMatrix[y]? with
    | none => simp [Canvas.get, Canvas.set, setMatrix, hy]
    | some row =>
      have hylt : y < c.toMatrix.length := by
        by_contra hcon
        rw [List.getElem?_eq_none (by omega)] at hy
        exact Option.noConfusion hy
      rw [Canvas.toMatrix_length] at hylt
      have hxge : x ≥ w := by rcases hob with h | h; exact h; omega
      obtain ⟨hlt, hrw⟩ := List.getElem?_eq_some_iff.mp hy
      have hrl : row.length = w :=
        toMatrix_row_lengths c w hw row (hrw ▸ List.getElem_mem hlt)
      have hxnone : row[x]? = none := List.getElem?_eq_none (by omega)
      simp [Canvas.get, Canvas.set, setMatrix, hy, hxnone]
  · cases hm : setMatrix c.toMatrix x y s with
    | none => intro _; simp [Canvas.mut_set, hm]
    | some m => intro h2; simp [Canvas.mut_set, hm] at h2
  · cases hm : invertAt c.toMatrix x y with
    | none => intro _; simp [Canvas.mut_invert_pixel, hm]
    | some m => intro h2; simp [Canvas.mut_invert_pixel, hm] at h2
  · cases hy : c.rows[y]? with
    | none => intro _; simp [Canvas.mut_set_duopixel, hy]
    | some row =>
      cases hx : row.pixels[x]? with
      | none => intro _; simp [Canvas.mut_set_duopixel, hy, hx]
      | some q => intro h2; simp [Canvas.mut_set_duopixel, hy, hx] at h2

/-- Witness for C5 at a concrete canvas and out-of-bounds coordinates. -/
theorem out_of_bounds_behavior_witness :
    (Canvas.ofMatrix [[true], [false]]).get 0 2 = none ∧
    (Canvas.ofMatrix [[true], [false]]).set 0 2 true = none ∧
    ((Canvas.ofMatrix [[true], [false]]).mut_set 0 2 true).1
      = Canvas.ofMatrix [[true], [false]] :=
  ⟨((out_of_bounds_behavior (Canvas.ofMatrix [[true], [false]]) 1 0 2 true
      ⟨true, true⟩ (by decide)).1 (by decide)).1,
   ((out_of_bounds_behavior (Canvas.ofMatrix [[true], [false]]) 1 0 2 true
      ⟨true, true⟩ (by decide)).1 (by decide)).2,
   (out_of_bounds_behavior (Canvas.ofMatrix [[true], [false]]) 1 0 2 true
      ⟨true, true⟩ (by decide)).2.1 (by decide)⟩

/-- Pairing distributes over appending an even-length front list. -/
theorem chunkPairs_append :
    ∀ l : List α, l.length % 2 = 0 → ∀ l' : List α,
      chunkPairs (l ++ l') = chunkPairs l ++ chunkPairs l'
  | [], _, l' => rfl
  | [_], h, _ => by simp at h
  | a :: b :: rest, h, l' => by
    have hr : rest.length % 2 = 0 := by
      simp only [List.length_cons] at h; omega
    simp only [List.cons_append, chunkPairs, List.append_eq,
      chunkPairs_append rest hr l']

/-- Every pixel zipped against an all-false lower row has its lower half
off. -/
theorem lower_of_zip_replicate :
    ∀ (a : List Bool) (n : Nat) (p : DuoPixel),
      p ∈ List.zipWith (fun u l => DuoPixel.mk u l) a (List.replicate n false) →
      p.lower = false := by
  intro a
  induction a with
  | nil => intro n p hp; simp at hp
  | cons x xs ih =>
    intro n p hp
    cases n with
    | zero => simp at hp
    | succ k =>
      rw [List.replicate_succ, List.zipWith_cons_cons] at hp
      rcases List.mem_cons.mp hp with h | h
      · rw [h]
      · exact ih k p h

/-- C6: a uniform-width matrix with an odd row count constructs the same
canvas as that matrix with one all-false row appended, and the last
physical row's lower halves are all off. -/
theorem odd_row_padding (m : List (List Bool)) (w : Nat)
    (ho : m.length % 2 = 1) (hw : ∀ r ∈ m, r.length = w) :
    Canvas.ofMatrix m = Canvas.ofMatrix (m ++ [List.replicate w false]) ∧
    (∀ lr, (Canvas.ofMatrix m).rows.getLast? = some lr →
      ∀ p ∈ lr.pixels, p.lower = false) := by
  have hne : m ≠ [] := by intro h0; subst h0; simp at ho
  have hhead : (m.headD []).length = w := by
    cases m with
    | nil => exact absurd rfl hne
    | cons a t => exact hw a (by simp)
  have hlonged : longed m = m ++ [List.replicate w false] := by
    unfold longed
    rw [if_neg (by omega), hhead]
  have heq : Canvas.ofMatrix m = Canvas.ofMatrix (m ++ [List.replicate w false]) := by
    rw [← ofMatrix_longed m, hlonged]
  refine ⟨heq, ?_⟩
  intro lr hlr
  have hsplit : m.dropLast ++ [m.getLast hne] = m := List.dropLast_append_getLast hne
  have hdl : m.dropLast.length % 2 = 0 := by
    have hld : m.dropLast.length = m.length - 1 := List.length_dropLast m
    omega
  have hev2 : (m ++ [List.replicate w false]).length % 2 = 0 := by
    simp only [List.length_append, List.length_cons, List.length_nil]
    omega
  have hrows : (Canvas.ofMatrix m).rows
      = (chunkPairs (m ++ [List.replicate w false])).map Row.ofPair := by
    rw [heq]
    simp only [Canvas.ofMatrix]
    rw [longed_of_even hev2]
  have happ : m ++ [List.replicate w false]
      = m.dropLast ++ [m.getLast hne, List.replicate w false] := by
    conv_lhs => rw [← hsplit]
    simp
  rw [hrows, happ, chunkPairs_append m.dropLast hdl, List.map_append] at hlr
  have hcp : (chunkPairs [m.getLast hne, List.replicate w false]).map Row.ofPair
      = [Row.ofPair (m.getLast hne, List.replicate w false)] := rfl
  rw [hcp, List.getLast?_concat] at hlr
  have hlr' : lr = Row.ofPair (m.getLast hne, List.replicate w false) :=
    (Option.some.inj hlr).symm
  rw [hlr']
  intro p hp
  exact lower_of_zip_replicate (m.getLast hne) w p hp

/-- Witness for C6 at a concrete odd uniform matrix. -/
theorem odd_row_padding_witness :
    Canvas.ofMatrix [[true, false]]
      = Canvas.ofMatrix ([[true, false]] ++ [List.replicate 2 false]) ∧
    (∀ p ∈ (Row.mk [DuoPixel.mk true false, DuoPixel.mk false false]).pixels,
      p.lower = false) :=
  ⟨(odd_row_padding [[true, false]] 2 (by decide) (by decide)).1,
   (odd_row_padding [[true, false]] 2 (by decide) (by decide)).2
     ⟨[⟨true, false⟩, ⟨false, false⟩]⟩ (by decide)⟩

/-- Checked pairing succeeds on every even-length list and agrees with
the unchecked pairing. -/
theorem chunkPairsChecked_of_even :
    ∀ l : List α, l.length % 2 = 0 → chunkPairsChecked l = some (chunkPairs l)
  | [], _ => rfl
  | [_], h => by simp at h
  | a :: b :: rest, h => by
    have hr : rest.length % 2 = 0 := by
      simp only [List.length_cons] at h; omega
    simp only [chunkPairsChecked, chunkPairs,
      chunkPairsChecked_of_even rest hr, Option.map_some']

/-- A pair produced at position `i` of the pairing comes from positions
`2i` and `2i+1` of the source list. -/
theorem chunkPairs_getElem? :
    ∀ (l : List α) (i : Nat) (p : α × α),
      (chunkPairs l)[i]? = some p →
      l[2 * i]? = some p.1 ∧ l[2 * i + 1]? = some p.2
  | [], i, p => by simp [chunkPairs]
  | [_], i, p => by simp [chunkPairs]
  | a :: b :: rest, i, p => by
    cases i with
    | zero =>
      intro h
      simp only [chunkPairs, List.getElem?_cons_zero] at h
      have hp := Option.some.inj h
      subst hp
      exact ⟨by simp, by simp⟩
    | succ j =>
      intro h
      simp only [chunkPairs, List.getElem?_cons_succ] at h
      have hres := chunkPairs_getElem? rest j p h
      have h2 : 2 * (j + 1) = 2 * j + 1 + 1 := by omega
      have h3 : 2 * (j + 1) + 1 = 2 * j + 1 + 1 + 1 := by omega
      constructor
      · rw [h2, List.getElem?_cons_succ, List.getElem?_cons_succ]
        exact hres.1
      · rw [h3, List.getElem?_cons_succ, List.getElem?_cons_succ]
        exact hres.2

/-- C10: canvas construction from a boolean matrix is total — the checked
variant modelling the `chunk[1]` index always succeeds — and each
physical row at index `i` is zipped from padded rows `2i` and `2i+1`,
with length the minimum of their lengths. -/
theorem ofMatrix_total_min_width (m : List (List Bool)) (i : Nat) (r : Row) :
    Canvas.ofMatrixChecked m = some (Canvas.ofMatrix m) ∧
    ((Canvas.ofMatrix m).rows[i]? = some r →
      ∃ a b, (longed m)[2 * i]? = some a ∧ (longed m)[2 * i + 1]? = some b ∧
        r.pixels.length = min a.length b.length) := by
  constructor
  · simp only [Canvas.ofMatrixChecked, Canvas.ofMatrix,
      chunkPairsChecked_of_even (longed m) (longed_even m), Option.map_some']
  · intro hr
    simp only [Canvas.ofMatrix, List.getElem?_map] at hr
    cases hq : (chunkPairs (longed m))[i]? with
    | none => rw [hq] at hr; simp at hr
    | some q =>
      rw [hq] at hr
      simp only [Option.map_some'] at hr
      have hrq : Row.ofPair q = r := Option.some.inj hr
      obtain ⟨h1, h2⟩ := chunkPairs_getElem? (longed m) i q hq
      exact ⟨q.1, q.2, h1, h2, by
        rw [← hrq]; simp [Row.ofPair, List.length_zipWith]⟩

/-- Witness for C10 at a concrete ragged matrix. -/
theorem ofMatrix_total_min_width_witness :
    Canvas.ofMatrixChecked [[true, false], [true]]
      = some (Canvas.ofMatrix [[true, false], [true]]) ∧
    (∃ a b, (longed [[true, false], [true]])[2 * 0]? = some a ∧
      (longed [[true, false], [true]])[2 * 0 + 1]? = some b ∧
      (Row.mk [DuoPixel.mk true true]).pixels.length = min a.length b.length) :=
  ⟨(ofMatrix_total_min_width [[true, false], [true]] 0 ⟨[⟨true, true⟩]⟩).1,
   (ofMatrix_total_min_width [[true, false], [true]] 0 ⟨[⟨true, true⟩]⟩).2 (by decide)⟩
